import Mathlib

set_option autoImplicit false

/-!
Verification of the request-admission limiter in `api/middleware/rate_limit.py`:
the Redis-backed sliding-window counter (`RateLimitMiddleware.check_rate_limit`),
the identity resolver (`RateLimitMiddleware.get_client_id`) and the admission
gate (`RateLimitMiddleware.__call__`).

The backing store is modelled as the fragment of Redis the middleware uses:
per-key sorted sets (a finite member-to-score map) plus per-key time-to-live.
The code only ever uses the member string `str(current_time)` together with the
score `current_time`; since Python's `str` is injective on canonical integers we
represent that member string by the integer itself, so an entry is a pair
`(member, score) : ℤ × ℤ`.  Element order inside the list is irrelevant to every
operation the middleware performs (range-removal, cardinality, update-or-add).
-/

/-- A Redis sorted set as used by the middleware: a list of `(member, score)`
pairs with pairwise-distinct members.  The member models the string
`str(t)` by the integer `t` itself. -/
abbrev ZSet := List (ℤ × ℤ)

/-- The slice of Redis state the middleware touches: one sorted set and one
optional time-to-live per key. -/
structure RedisState where
  zset : String → ZSet
  ttl : String → Option ℤ

/-- The state of a fresh store: every key empty, no expiries set. -/
def emptyState : RedisState := { zset := fun _ => [], ttl := fun _ => none }

/-- `ZREMRANGEBYSCORE key lo hi`: remove every member whose score lies in the
inclusive range `[lo, hi]` (Redis range bounds are inclusive by default). -/
def zremrangebyscore (s : RedisState) (k : String) (lo hi : ℤ) : RedisState :=
  { s with
    zset := fun k2 =>
      if k2 = k then (s.zset k).filter (fun e => decide (¬ (lo ≤ e.2 ∧ e.2 ≤ hi)))
      else s.zset k2 }

/-- `ZCARD key`: the number of members of the sorted set at `k`. -/
def zcard (s : RedisState) (k : String) : ℕ := (s.zset k).length

/-- `ZADD key {member: score}` on the underlying member map: if the member is
already present its score is updated in place, otherwise the entry is added. -/
def zaddList (z : ZSet) (member score : ℤ) : ZSet :=
  if z.any (fun e => e.1 == member) then
    z.map (fun e => if e.1 = member then (e.1, score) else e)
  else z ++ [(member, score)]

/-- `ZADD key {member: score}` lifted to the keyed store. -/
def zadd (s : RedisState) (k : String) (member score : ℤ) : RedisState :=
  { s with
    zset := fun k2 => if k2 = k then zaddList (s.zset k2) member score else s.zset k2 }

/-- `EXPIRE key seconds`: set the key's time-to-live. -/
def expire (s : RedisState) (k : String) (seconds : ℤ) : RedisState :=
  { s with ttl := fun k2 => if k2 = k then some seconds else s.ttl k2 }

/-- The four backing-store operations `check_rate_limit` performs, in order
(lines 75, 78, 84, 85 of `rate_limit.py`). -/
inductive StoreOp
  | prune
  | count
  | record
  | setExpiry
deriving DecidableEq

/-- Result of one `check_rate_limit` call: the boolean the caller sees, whether
a store exception was raised (and caught by the `try/except`), the store state
after the call, and the store operations successfully performed. -/
structure CheckResult where
  admitted : Bool
  raised : Bool
  state : RedisState
  ops : List StoreOp

/-- `f"rate_limit:{client_id}"` (line 70). -/
def rateLimitKey (client_id : String) : String := "rate_limit:" ++ client_id

/-- `RateLimitMiddleware.check_rate_limit` (lines 67-92).  `failing` designates
the store operation, if any, that raises on this call; the surrounding
`try/except Exception` catches the error and returns `True` (lines 89-92), so
state changes made before the failing operation persist.  `maxRequests` and
`period` are `settings.RATE_LIMIT_REQUESTS` and `settings.RATE_LIMIT_PERIOD`;
`now` is `int(time.time())`. -/
def check_rate_limit (failing : Option StoreOp) (maxRequests period : ℤ)
    (s : RedisState) (client_id : String) (now : ℤ) : CheckResult :=
  let key := rateLimitKey client_id
  let window_start := now - period
  if failing = some StoreOp.prune then ⟨true, true, s, []⟩
  else
    let s1 := zremrangebyscore s key 0 window_start
    if failing = some StoreOp.count then ⟨true, true, s1, [StoreOp.prune]⟩
    else
      let request_count := zcard s1 key
      if (request_count : ℤ) ≥ maxRequests then
        ⟨false, false, s1, [StoreOp.prune, StoreOp.count]⟩
      else if failing = some StoreOp.record then
        ⟨true, true, s1, [StoreOp.prune, StoreOp.count]⟩
      else
        let s2 := zadd s1 key now now
        if failing = some StoreOp.setExpiry then
          ⟨true, true, s2, [StoreOp.prune, StoreOp.count, StoreOp.record]⟩
        else
          ⟨true, false, expire s2 key period,
            [StoreOp.prune, StoreOp.count, StoreOp.record, StoreOp.setExpiry]⟩

/-- The prune step exactly as `check_rate_limit` performs it:
`redis_client.zremrangebyscore(key, 0, window_start)` with
`window_start = current_time - settings.RATE_LIMIT_PERIOD` (lines 71-75). -/
def pruneStep (period : ℤ) (s : RedisState) (client_id : String) (now : ℤ) : RedisState :=
  zremrangebyscore s (rateLimitKey client_id) 0 (now - period)

/-- A sequence of `check_rate_limit` calls for one client at the given times,
executed back to back (each call's store operations are not interleaved with
another call's, i.e. the atomic-execution reading of the claims).  Returns the
final store state and the times of the calls that were admitted, in order. -/
def runCalls (maxRequests period : ℤ) (client_id : String) :
    RedisState → List ℤ → RedisState × List ℤ
  | s, [] => (s, [])
  | s, t :: ts =>
    let r := check_rate_limit none maxRequests period s client_id t
    let rest := runCalls maxRequests period client_id r.state ts
    (rest.1, if r.admitted then t :: rest.2 else rest.2)

/-- Store states reachable from a fresh store by `check_rate_limit` calls (with
no store failures), for arbitrary clients and times. -/
inductive Reachable (maxRequests period : ℤ) : RedisState → Prop
  | empty : Reachable maxRequests period emptyState
  | step (s : RedisState) (client_id : String) (now : ℤ) :
      Reachable maxRequests period s →
      Reachable maxRequests period
        (check_rate_limit none maxRequests period s client_id now).state

/-- An inbound HTTP request as the middleware sees it: the URL path, the
`Authorization` header, `request.client.host` (absent when `request.client` is
`None`), and the `X-Forwarded-For` header.  `some ""` models a header that is
present with an empty value, which is falsy in Python. -/
structure HttpRequest where
  path : String
  authorization : Option String
  clientHost : Option String
  forwardedFor : Option String

/-- Python `str.strip()` restricted to ASCII whitespace, implemented over the
character list so that it evaluates by kernel reduction: drop whitespace from
both ends. -/
def pyStrip (s : String) : String :=
  ⟨((s.data.dropWhile Char.isWhitespace).reverse.dropWhile Char.isWhitespace).reverse⟩

/-- Split a character list at every comma, accumulating the current token. -/
def splitOnCommaAux : List Char → List Char → List (List Char)
  | [], acc => [acc.reverse]
  | c :: cs, acc =>
    if c = ',' then acc.reverse :: splitOnCommaAux cs []
    else splitOnCommaAux cs (c :: acc)

/-- Python `s.split(",")`: the comma-separated tokens, never empty as a list
(the empty string yields `[""]`, as in Python). -/
def pySplitComma (s : String) : List String :=
  (splitOnCommaAux s.data []).map (fun l => ⟨l⟩)

/-- The IP branch of `get_client_id` (lines 59-65): default to
`request.client.host` (or `"unknown"` when there is no client), override with
the first comma-separated token of a truthy `X-Forwarded-For`, stripped of
surrounding whitespace, and return `f"ip:{client_ip}"`. -/
def ipKey (req : HttpRequest) : String :=
  let client_ip :=
    match req.clientHost with
    | some h => h
    | none => "unknown"
  let client_ip :=
    match req.forwardedFor with
    | some ff => if ff ≠ "" then pyStrip ((pySplitComma ff).getD 0 "") else client_ip
    | none => client_ip
  "ip:" ++ client_ip

/-- `RateLimitMiddleware.get_client_id` (lines 49-65).  `hash16` models
`hashlib.sha256(authorization.encode()).hexdigest()[:16]`, which the claims
never need to evaluate, so it is passed in as the hashing dependency. -/
def get_client_id (hash16 : String → String) (req : HttpRequest) : String :=
  match req.authorization with
  | some authorization =>
    if authorization ≠ "" ∧ authorization.startsWith "Bearer " then
      "user:" ++ hash16 authorization
    else ipKey req
  | none => ipKey req

/-- The 429 response built on rejection (lines 37-44): `JSONResponse` with the
given status code and JSON body fields.  `headers` holds the custom headers
passed to the response constructor; the code passes none. -/
structure RejectionResponse where
  status_code : ℕ
  error : String
  message : String
  retry_after : ℤ
  headers : List (String × String)
deriving DecidableEq

/-- The concrete rejection response of lines 37-44. -/
def rateLimitResponse (maxRequests period : ℤ) : RejectionResponse :=
  { status_code := 429
    error := "Rate limit exceeded"
    message := "Maximum " ++ toString maxRequests ++ " requests per "
      ++ toString period ++ " seconds"
    retry_after := period
    headers := [] }

/-- Outcome of the gate for one request: forward to the wrapped app, or
short-circuit with the rejection response. -/
inductive GateOutcome
  | forwarded
  | rejected (response : RejectionResponse)
deriving DecidableEq

/-- The paths exempt from rate limiting (line 29). -/
def exemptPaths : List String := ["/health", "/docs", "/redoc", "/openapi.json"]

/-- What one pass through `RateLimitMiddleware.__call__` produces: the outcome,
the store state afterwards, the store operations performed, and the rate-limit
key that was computed (if any). -/
structure GateResult where
  outcome : GateOutcome
  state : RedisState
  ops : List StoreOp
  computedKey : Option String

/-- `RateLimitMiddleware.__call__` (lines 22-47) on an HTTP-scoped request
(non-HTTP scopes are forwarded before a `Request` is even built, lines 23-24,
and are outside the claims). -/
def middlewareCall (hash16 : String → String) (maxRequests period : ℤ)
    (req : HttpRequest) (s : RedisState) (now : ℤ) : GateResult :=
  if req.path ∈ exemptPaths then ⟨GateOutcome.forwarded, s, [], none⟩
  else
    let client_id := get_client_id hash16 req
    let r := check_rate_limit none maxRequests period s client_id now
    if r.admitted then ⟨GateOutcome.forwarded, r.state, r.ops, some client_id⟩
    else
      ⟨GateOutcome.rejected (rateLimitResponse maxRequests period), r.state, r.ops,
        some client_id⟩

/-- The address-resolution rule exactly as the claim words it: when the
forwarded-for header is present, the first comma-separated token trimmed of
surrounding whitespace; else the peer address; else `"unknown"`. -/
def specResolvedAddress (req : HttpRequest) : String :=
  match req.forwardedFor with
  | some ff => pyStrip ((pySplitComma ff).getD 0 "")
  | none =>
    match req.clientHost with
    | some h => h
    | none => "unknown"

/-- The address-resolution rule as amended: the forwarded-for header is used
only when present **and non-empty** (Python truthiness of the header value);
otherwise the peer address, else `"unknown"`. -/
def amendedResolvedAddress (req : HttpRequest) : String :=
  match req.forwardedFor with
  | some ff =>
    if ff ≠ "" then pyStrip ((pySplitComma ff).getD 0 "")
    else
      match req.clientHost with
      | some h => h
      | none => "unknown"
  | none =>
    match req.clientHost with
    | some h => h
    | none => "unknown"

/-- A store holding a single admission recorded at second 0 for client `"c"`. -/
def stateWithZero : RedisState :=
  { zset := fun k => if k = rateLimitKey "c" then [(0, 0)] else [], ttl := fun _ => none }

/-- A store holding a single admission recorded at second 5 for the anonymous
client `"ip:unknown"`. -/
def stateWithFive : RedisState :=
  { zset := fun k => if k = rateLimitKey "ip:unknown" then [(5, 5)] else []
    ttl := fun _ => none }

/-- The structural invariant on a key's sorted set: every entry's member equals
its score (entries are `(str(t), t)` pairs), and members are pairwise
distinct. -/
def ZSetInv (z : ZSet) : Prop :=
  (∀ e ∈ z, e.1 = e.2) ∧ (z.map Prod.fst).Nodup

/-- Induction invariant for a back-to-back call trace of one client, where
`admitted` is the strictly increasing list of distinct admitted seconds so far
and `last` an upper bound on all call times so far: the key's stored set holds
exactly the admitted seconds still inside the window anchored at `last`, and
every admitted second `t0` had, at the moment it was admitted, at most
`maxRequests` admitted seconds inside its own trailing window. -/
structure TraceInv (maxRequests period : ℤ) (client_id : String) (s : RedisState)
    (admitted : List ℤ) (last : ℤ) : Prop where
  sorted : admitted.Sorted (· < ·)
  nonneg : ∀ t ∈ admitted, 0 ≤ t
  ub : ∀ t ∈ admitted, t ≤ last
  zset_eq : s.zset (rateLimitKey client_id)
    = (admitted.filter (fun t => decide (last - period < t))).map (fun t => (t, t))
  window_bound : ∀ t0 ∈ admitted,
    ((admitted.filter (fun t => decide (t0 - period < t ∧ t ≤ t0))).length : ℤ)
      ≤ maxRequests

/-! ### Projection lemmas for the store operations -/

theorem zremrangebyscore_zset_self (s : RedisState) (k : String) (lo hi : ℤ) :
    (zremrangebyscore s k lo hi).zset k
      = (s.zset k).filter (fun e => decide (¬ (lo ≤ e.2 ∧ e.2 ≤ hi))) := by
  simp [zremrangebyscore]

theorem zremrangebyscore_zset_ne (s : RedisState) (k k2 : String) (lo hi : ℤ)
    (h : k2 ≠ k) : (zremrangebyscore s k lo hi).zset k2 = s.zset k2 := by
  simp [zremrangebyscore, h]

theorem zremrangebyscore_ttl (s : RedisState) (k : String) (lo hi : ℤ) :
    (zremrangebyscore s k lo hi).ttl = s.ttl := rfl

theorem zadd_zset_self (s : RedisState) (k : String) (m sc : ℤ) :
    (zadd s k m sc).zset k = zaddList (s.zset k) m sc := by
  simp [zadd]

theorem zadd_zset_ne (s : RedisState) (k k2 : String) (m sc : ℤ) (h : k2 ≠ k) :
    (zadd s k m sc).zset k2 = s.zset k2 := by
  simp [zadd, h]

theorem zadd_ttl (s : RedisState) (k : String) (m sc : ℤ) :
    (zadd s k m sc).ttl = s.ttl := rfl

theorem expire_zset (s : RedisState) (k : String) (secs : ℤ) :
    (expire s k secs).zset = s.zset := rfl

theorem expire_ttl_ne (s : RedisState) (k k2 : String) (secs : ℤ) (h : k2 ≠ k) :
    (expire s k secs).ttl k2 = s.ttl k2 := by
  simp [expire, h]

/-- With no store failure, `check_rate_limit` on a full window rejects and its
final state is exactly the pruned state. -/
theorem check_rate_limit_none_reject (maxRequests period : ℤ) (s : RedisState)
    (client_id : String) (now : ℤ)
    (h : (zcard (pruneStep period s client_id now) (rateLimitKey client_id) : ℤ) ≥ maxRequests) :
    check_rate_limit none maxRequests period s client_id now
      = ⟨false, false, pruneStep period s client_id now, [StoreOp.prune, StoreOp.count]⟩ := by
  simp only [pruneStep] at h
  simp [check_rate_limit, pruneStep, h]

/-- With no store failure, `check_rate_limit` under the limit admits, records
`now` and refreshes the key's expiry. -/
theorem check_rate_limit_none_allow (maxRequests period : ℤ) (s : RedisState)
    (client_id : String) (now : ℤ)
    (h : ¬ ((zcard (pruneStep period s client_id now) (rateLimitKey client_id) : ℤ) ≥ maxRequests)) :
    check_rate_limit none maxRequests period s client_id now
      = ⟨true, false,
          expire (zadd (pruneStep period s client_id now) (rateLimitKey client_id) now now)
            (rateLimitKey client_id) period,
          [StoreOp.prune, StoreOp.count, StoreOp.record, StoreOp.setExpiry]⟩ := by
  simp only [pruneStep] at h
  simp [check_rate_limit, pruneStep, h]

/-! ### Shared helper lemmas -/

/-- Membership after the prune step: an entry survives iff it was stored and its
score is outside the inclusive removal range `[0, window_start]`. -/
theorem mem_pruneStep_iff (period : ℤ) (s : RedisState) (client_id : String)
    (now : ℤ) (e : ℤ × ℤ) :
    e ∈ (pruneStep period s client_id now).zset (rateLimitKey client_id)
      ↔ e ∈ s.zset (rateLimitKey client_id) ∧ ¬ (0 ≤ e.2 ∧ e.2 ≤ now - period) := by
  simp only [pruneStep, zremrangebyscore_zset_self, List.mem_filter, decide_eq_true_eq]

/-- Recording the current second always leaves its entry in the set. -/
theorem mem_zaddList_same (z : ZSet) (now : ℤ) : (now, now) ∈ zaddList z now now := by
  unfold zaddList
  split
  · rename_i hany
    rw [List.any_eq_true] at hany
    obtain ⟨e, he, heq⟩ := hany
    rw [List.mem_map]
    rw [beq_iff_eq] at heq
    exact ⟨e, he, by simp [heq]⟩
  · simp

/-- Recording the current second neither adds nor removes an entry of a
different second. -/
theorem mem_zaddList_ne (z : ZSet) (now t : ℤ) (h : t ≠ now) :
    ((t, t) ∈ zaddList z now now) ↔ (t, t) ∈ z := by
  unfold zaddList
  split
  · rw [List.mem_map]
    constructor
    · rintro ⟨e, he, heq⟩
      by_cases he1 : e.1 = now
      · rw [if_pos he1] at heq
        rw [Prod.ext_iff] at heq
        exact absurd heq.2.symm h
      · rw [if_neg he1] at heq
        rwa [heq] at he
    · intro hmem
      refine ⟨(t, t), hmem, ?_⟩
      rw [if_neg (by simpa using h)]
  · simp [List.mem_append, Prod.ext_iff, h]

theorem rateLimitKey_injective {a b : String} (h : rateLimitKey a = rateLimitKey b) :
    a = b := by
  have h2 := congrArg String.data h
  simp only [rateLimitKey, String.data_append] at h2
  exact String.ext (List.append_cancel_left h2)

/-! ### Claim theorems -/

/-- C2: if any backing-store operation (prune, count, record, or expiry-set)
raises an error during `check_rate_limit`, the call returns `true` — the
request is admitted (fail-open) — and the error is caught by the
`try/except`, never propagated. -/
theorem fail_open_on_store_error (failing : Option StoreOp) (maxRequests period : ℤ)
    (s : RedisState) (client_id : String) (now : ℤ)
    (h : (check_rate_limit failing maxRequests period s client_id now).raised = true) :
    (check_rate_limit failing maxRequests period s client_id now).admitted = true := by
  by_cases hc : ((((zremrangebyscore s (rateLimitKey client_id) 0 (now - period)).zset
      (rateLimitKey client_id)).length : ℤ) ≥ maxRequests) <;>
    rcases failing with _ | (_ | _ | _ | _) <;>
    simp_all [check_rate_limit, zcard] <;>
    (rw [if_neg (by omega)] at h ⊢; try simp_all)

/-- Witness for C2 at a concrete input: the prune operation raises, the raise is
observed, and the call still admits. -/
theorem fail_open_on_store_error_witness :
    (check_rate_limit (some StoreOp.prune) 100 60 emptyState "c" 0).raised = true
    ∧ (check_rate_limit (some StoreOp.prune) 100 60 emptyState "c" 0).admitted = true :=
  ⟨rfl, fail_open_on_store_error (some StoreOp.prune) 100 60 emptyState "c" 0 rfl⟩

/-- C3 counterexample: with `windowSeconds = 60` and `now = 60` the window start
is `0`; the stored timestamp `0` is **not** `< windowStart`, yet the prune step
removes it, because `ZREMRANGEBYSCORE key 0 window_start` is inclusive at both
ends. -/
theorem prune_removes_timestamp_at_window_start :
    ((0 : ℤ), (0 : ℤ)) ∈ stateWithZero.zset (rateLimitKey "c")
    ∧ ¬ ((0 : ℤ) < 60 - 60)
    ∧ ((0 : ℤ), (0 : ℤ)) ∉ (pruneStep 60 stateWithZero "c" 60).zset (rateLimitKey "c") := by
  decide

/-- C3 (amended): on every `check_rate_limit` call with `windowStart =
now - windowSeconds`, the prune step removes from the key's stored set exactly
those entries whose timestamp `t` satisfies `0 ≤ t ∧ t ≤ windowStart`
(inclusive at `windowStart`), and no entry with `t > windowStart` or `t < 0`. -/
theorem prune_removes_upto_window_start_inclusive (period : ℤ) (s : RedisState)
    (client_id : String) (now : ℤ) (e : ℤ × ℤ) :
    e ∈ (pruneStep period s client_id now).zset (rateLimitKey client_id)
      ↔ e ∈ s.zset (rateLimitKey client_id) ∧ ¬ (0 ≤ e.2 ∧ e.2 ≤ now - period) :=
  mem_pruneStep_iff period s client_id now e

/-- C4: a recorded admission timestamp `t` (stored as the entry with member
`str(t)` and score `t`) is removed from the key's stored set by a
`check_rate_limit` call at time `now` iff `now ≥ t + windowSeconds`: it is
never pruned by a call before `t + windowSeconds`, and always pruned by any
call at or after `t + windowSeconds`. -/
theorem recorded_timestamp_pruned_iff_window_elapsed (maxRequests period : ℤ)
    (s : RedisState) (client_id : String) (t now : ℤ) (ht : 0 ≤ t) (hper : 0 < period)
    (hmem : (t, t) ∈ s.zset (rateLimitKey client_id)) :
    ((t, t) ∉ (check_rate_limit none maxRequests period s client_id now).state.zset
        (rateLimitKey client_id))
      ↔ t + period ≤ now := by
  have hchar : ((t, t) ∈ (pruneStep period s client_id now).zset (rateLimitKey client_id))
      ↔ now < t + period := by
    rw [mem_pruneStep_iff]
    simp only [hmem, true_and]
    omega
  by_cases hc : ((zcard (pruneStep period s client_id now) (rateLimitKey client_id) : ℤ)
      ≥ maxRequests)
  · rw [check_rate_limit_none_reject _ _ _ _ _ hc]
    rw [show (⟨false, false, pruneStep period s client_id now,
      [StoreOp.prune, StoreOp.count]⟩ : CheckResult).state = pruneStep period s client_id now
      from rfl]
    rw [hchar]
    omega
  · rw [check_rate_limit_none_allow _ _ _ _ _ hc]
    rw [show (⟨true, false,
      expire (zadd (pruneStep period s client_id now) (rateLimitKey client_id) now now)
        (rateLimitKey client_id) period,
      [StoreOp.prune, StoreOp.count, StoreOp.record, StoreOp.setExpiry]⟩ : CheckResult).state
      = expire (zadd (pruneStep period s client_id now) (rateLimitKey client_id) now now)
        (rateLimitKey client_id) period from rfl]
    rw [expire_zset, zadd_zset_self]
    by_cases htn : t = now
    · subst htn
      simp [mem_zaddList_same]
      omega
    · rw [mem_zaddList_ne _ _ _ htn, hchar]
      omega

/-- Witness for C4 at a concrete input: the admission recorded at second 0 is
pruned by a call at second 60 with a 60-second window. -/
theorem recorded_timestamp_pruned_iff_window_elapsed_witness :
    (0 : ℤ) ≤ 0 ∧ (0 : ℤ) < 60
    ∧ ((0 : ℤ), (0 : ℤ)) ∈ stateWithZero.zset (rateLimitKey "c")
    ∧ ((((0 : ℤ), (0 : ℤ)) ∉ (check_rate_limit none 100 60 stateWithZero "c" 60).state.zset
        (rateLimitKey "c")) ↔ (0 : ℤ) + 60 ≤ 60) :=
  ⟨by decide, by decide, by decide,
    recorded_timestamp_pruned_iff_window_elapsed 100 60 stateWithZero "c" 0 60
      (by decide) (by decide) (by decide)⟩

/-- C7: when the post-prune count has reached `maxAdmissions`, the call returns
`false` and records nothing: the final state is exactly the pruned state, so
only removals happened — no timestamp was added to the key's stored set, and
the key's expiry was not refreshed. -/
theorem reject_records_nothing (maxRequests period : ℤ) (s : RedisState)
    (client_id : String) (now : ℤ)
    (h : (zcard (pruneStep period s client_id now) (rateLimitKey client_id) : ℤ)
      ≥ maxRequests) :
    (check_rate_limit none maxRequests period s client_id now).admitted = false
    ∧ (check_rate_limit none maxRequests period s client_id now).state
        = pruneStep period s client_id now
    ∧ (check_rate_limit none maxRequests period s client_id now).state.ttl = s.ttl
    ∧ ∀ e, e ∈ (check_rate_limit none maxRequests period s client_id now).state.zset
          (rateLimitKey client_id) → e ∈ s.zset (rateLimitKey client_id) := by
  rw [check_rate_limit_none_reject _ _ _ _ _ h]
  refine ⟨rfl, rfl, rfl, ?_⟩
  intro e he
  exact ((mem_pruneStep_iff period s client_id now e).mp he).1

/-- Witness for C7 at a concrete input: one admission stored at second 5, limit
1, so a call at second 10 is rejected without recording. -/
theorem reject_records_nothing_witness :
    ((zcard (pruneStep 60 stateWithFive "ip:unknown" 10) (rateLimitKey "ip:unknown") : ℤ) ≥ 1)
    ∧ ((check_rate_limit none 1 60 stateWithFive "ip:unknown" 10).admitted = false
      ∧ (check_rate_limit none 1 60 stateWithFive "ip:unknown" 10).state
          = pruneStep 60 stateWithFive "ip:unknown" 10
      ∧ (check_rate_limit none 1 60 stateWithFive "ip:unknown" 10).state.ttl
          = stateWithFive.ttl
      ∧ ∀ e, e ∈ (check_rate_limit none 1 60 stateWithFive "ip:unknown" 10).state.zset
            (rateLimitKey "ip:unknown") → e ∈ stateWithFive.zset (rateLimitKey "ip:unknown")) :=
  ⟨by decide, reject_records_nothing 1 60 stateWithFive "ip:unknown" 10 (by decide)⟩

/-- C9: a request whose path is in the exempt set is forwarded with zero store
interactions — the store state is returned untouched, no store operation runs,
and no rate-limit key is computed. -/
theorem exempt_path_bypasses_store (hash16 : String → String) (maxRequests period : ℤ)
    (req : HttpRequest) (s : RedisState) (now : ℤ) (h : req.path ∈ exemptPaths) :
    middlewareCall hash16 maxRequests period req s now
      = ⟨GateOutcome.forwarded, s, [], none⟩ := by
  simp [middlewareCall, h]

/-- Witness for C9 at a concrete input: the health-check path. -/
theorem exempt_path_bypasses_store_witness :
    ("/health" : String) ∈ exemptPaths
    ∧ middlewareCall (fun _ => "") 100 60 ⟨"/health", none, none, none⟩ emptyState 0
        = ⟨GateOutcome.forwarded, emptyState, [], none⟩ :=
  ⟨by decide,
    exempt_path_bypasses_store (fun _ => "") 100 60 ⟨"/health", none, none, none⟩
      emptyState 0 (by decide)⟩

/-- C10: a `check_rate_limit` call for one client leaves every other client's
stored timestamps and expiry unchanged, and its admit/reject decision depends
only on its own key's stored set (so not on the state of any other key). -/
theorem distinct_keys_noninterference (maxRequests period : ℤ) (cid1 cid2 : String)
    (s t : RedisState) (now : ℤ) (h : cid2 ≠ cid1) :
    ((check_rate_limit none maxRequests period s cid1 now).state.zset (rateLimitKey cid2)
        = s.zset (rateLimitKey cid2)
      ∧ (check_rate_limit none maxRequests period s cid1 now).state.ttl (rateLimitKey cid2)
        = s.ttl (rateLimitKey cid2))
    ∧ (s.zset (rateLimitKey cid1) = t.zset (rateLimitKey cid1) →
        (check_rate_limit none maxRequests period s cid1 now).admitted
          = (check_rate_limit none maxRequests period t cid1 now).admitted) := by
  have hk : rateLimitKey cid2 ≠ rateLimitKey cid1 := fun he => h (rateLimitKey_injective he)
  constructor
  · by_cases hc : ((zcard (pruneStep period s cid1 now) (rateLimitKey cid1) : ℤ) ≥ maxRequests)
    · rw [check_rate_limit_none_reject _ _ _ _ _ hc]
      exact ⟨zremrangebyscore_zset_ne _ _ _ _ _ hk, rfl⟩
    · rw [check_rate_limit_none_allow _ _ _ _ _ hc]
      constructor
      · rw [show (expire (zadd (pruneStep period s cid1 now) (rateLimitKey cid1) now now)
          (rateLimitKey cid1) period).zset
          = (zadd (pruneStep period s cid1 now) (rateLimitKey cid1) now now).zset from rfl]
        rw [zadd_zset_ne _ _ _ _ _ hk]
        exact zremrangebyscore_zset_ne _ _ _ _ _ hk
      · rw [expire_ttl_ne _ _ _ _ hk]
        rfl
  · intro hzs
    have hcount : zcard (pruneStep period s cid1 now) (rateLimitKey cid1)
        = zcard (pruneStep period t cid1 now) (rateLimitKey cid1) := by
      simp [zcard, pruneStep, zremrangebyscore_zset_self, hzs]
    by_cases hc : ((zcard (pruneStep period s cid1 now) (rateLimitKey cid1) : ℤ) ≥ maxRequests)
    · rw [check_rate_limit_none_reject _ _ _ _ _ hc,
        check_rate_limit_none_reject _ _ _ _ _ (by rw [← hcount]; exact hc)]
    · rw [check_rate_limit_none_allow _ _ _ _ _ hc,
        check_rate_limit_none_allow _ _ _ _ _ (by rw [← hcount]; exact hc)]

/-- Witness for C10 at a concrete input: a call for client `"a"` leaves the
stored set and expiry of client `"c"` unchanged, and its decision agrees across
two stores that agree on key `"rate_limit:a"`. -/
theorem distinct_keys_noninterference_witness :
    ("c" : String) ≠ "a"
    ∧ (((check_rate_limit none 100 60 stateWithZero "a" 7).state.zset (rateLimitKey "c")
        = stateWithZero.zset (rateLimitKey "c")
      ∧ (check_rate_limit none 100 60 stateWithZero "a" 7).state.ttl (rateLimitKey "c")
        = stateWithZero.ttl (rateLimitKey "c"))
    ∧ (stateWithZero.zset (rateLimitKey "a") = emptyState.zset (rateLimitKey "a") →
        (check_rate_limit none 100 60 stateWithZero "a" 7).admitted
          = (check_rate_limit none 100 60 emptyState "a" 7).admitted)) :=
  ⟨by decide, distinct_keys_noninterference 100 60 "a" "c" stateWithZero emptyState 7
    (by decide)⟩

/-- C6 counterexample: a rejected request is answered with the 429 JSON body,
but the response is constructed without any custom header, so no
`Retry-After`-equivalent header is attached — the retry hint lives only in the
body field. -/
theorem reject_response_has_no_retry_after_header :
    (middlewareCall (fun _ => "") 1 60 ⟨"/api/accounts", none, none, none⟩
        stateWithFive 10).outcome
      = GateOutcome.rejected (rateLimitResponse 1 60)
    ∧ (rateLimitResponse 1 60).headers.any (fun p => p.1 == "Retry-After") = false := by
  constructor
  · decide
  · rfl

/-- C6 (amended): every non-exempt request whose rate-limit check returns false
is short-circuited with an HTTP 429 response whose body carries the error
classification `"Rate limit exceeded"`, a message naming the configured
`maxAdmissions` and `windowSeconds`, and a numeric retry-after value equal to
`windowSeconds`; the retry hint is surfaced only in the body — the response
carries no `Retry-After`-equivalent header. -/
theorem reject_response_fields (hash16 : String → String) (maxRequests period : ℤ)
    (req : HttpRequest) (s : RedisState) (now : ℤ)
    (hpath : req.path ∉ exemptPaths)
    (hrej : (check_rate_limit none maxRequests period s (get_client_id hash16 req)
        now).admitted = false) :
    (middlewareCall hash16 maxRequests period req s now).outcome
      = GateOutcome.rejected
          { status_code := 429
            error := "Rate limit exceeded"
            message := "Maximum " ++ toString maxRequests ++ " requests per "
              ++ toString period ++ " seconds"
            retry_after := period
            headers := [] } := by
  simp [middlewareCall, hpath, hrej, rateLimitResponse]

/-- Witness for C6 at a concrete input: limit 1, one admission already stored,
so the next call is rejected with the structured 429 response. -/
theorem reject_response_fields_witness :
    (("/api/accounts" : String) ∉ exemptPaths)
    ∧ ((check_rate_limit none 1 60 stateWithFive
        (get_client_id (fun _ => "") ⟨"/api/accounts", none, none, none⟩) 10).admitted = false)
    ∧ (middlewareCall (fun _ => "") 1 60 ⟨"/api/accounts", none, none, none⟩
        stateWithFive 10).outcome
      = GateOutcome.rejected
          { status_code := 429
            error := "Rate limit exceeded"
            message := "Maximum " ++ toString (1 : ℤ) ++ " requests per "
              ++ toString (60 : ℤ) ++ " seconds"
            retry_after := 60
            headers := [] } :=
  ⟨by decide, by decide,
    reject_response_fields (fun _ => "") 1 60 ⟨"/api/accounts", none, none, none⟩
      stateWithFive 10 (by decide) (by decide)⟩

/-- C8 counterexample: with no credential and a forwarded-for header that is
present but empty, the code falls back to the peer address (Python truthiness),
while the claim's rule — first comma-separated token of the header whenever the
header is present — yields the empty address. -/
theorem empty_forwarded_for_uses_peer_address :
    get_client_id (fun _ => "") ⟨"/x", none, some "9.9.9.9", some ""⟩ = "ip:9.9.9.9"
    ∧ "ip:" ++ specResolvedAddress ⟨"/x", none, some "9.9.9.9", some ""⟩ = "ip:"
    ∧ ("ip:9.9.9.9" : String) ≠ "ip:" := by
  refine ⟨by decide, by decide, by decide⟩

/-- The concrete forwarded-for scenario: the first comma token, stripped. -/
theorem ipKey_scenario (p : String) (ch : Option String) :
    ipKey ⟨p, none, ch, some "203.0.113.5, 10.0.0.1"⟩ = "ip:203.0.113.5" := by
  show "ip:" ++ pyStrip ((pySplitComma "203.0.113.5, 10.0.0.1").getD 0 "")
    = "ip:203.0.113.5"
  decide

/-- C8 (amended): for every request without a bearer credential, the identity
resolver yields `"ip:" ++ address`, where `address` is the first
comma-separated token of the forwarded-for header with surrounding whitespace
trimmed when that header is present **and non-empty**, else the peer address,
else the literal `"unknown"`; in particular forwarded-for
`"203.0.113.5, 10.0.0.1"` resolves to address `"203.0.113.5"`. -/
theorem client_id_without_bearer (hash16 : String → String) (req : HttpRequest)
    (h : ∀ a, req.authorization = some a → ¬ (a ≠ "" ∧ a.startsWith "Bearer ")) :
    get_client_id hash16 req = "ip:" ++ amendedResolvedAddress req
    ∧ get_client_id hash16
        ⟨req.path, none, req.clientHost, some "203.0.113.5, 10.0.0.1"⟩
      = "ip:203.0.113.5" := by
  constructor
  · have hip : ipKey req = "ip:" ++ amendedResolvedAddress req := by
      unfold ipKey amendedResolvedAddress
      rcases req.forwardedFor with _ | ff
      · rcases req.clientHost with _ | h0 <;> simp
      · rcases req.clientHost with _ | h0 <;> by_cases hff : ff = "" <;> simp [hff]
    rcases ha : req.authorization with _ | a
    · simp only [get_client_id, ha, hip]
    · have hna := h a ha
      simp only [get_client_id, ha]
      rw [if_neg hna, hip]
  · show ipKey ⟨req.path, none, req.clientHost, some "203.0.113.5, 10.0.0.1"⟩
      = "ip:203.0.113.5"
    exact ipKey_scenario req.path req.clientHost

/-- Witness for C8 at a concrete input: no credential, peer `"7.7.7.7"`,
forwarded-for `"203.0.113.5, 10.0.0.1"`. -/
theorem client_id_without_bearer_witness :
    (∀ a, (⟨"/x", none, some "7.7.7.7", some "203.0.113.5, 10.0.0.1"⟩
        : HttpRequest).authorization = some a → ¬ (a ≠ "" ∧ a.startsWith "Bearer "))
    ∧ (get_client_id (fun _ => "")
          ⟨"/x", none, some "7.7.7.7", some "203.0.113.5, 10.0.0.1"⟩
        = "ip:" ++ amendedResolvedAddress
            ⟨"/x", none, some "7.7.7.7", some "203.0.113.5, 10.0.0.1"⟩
      ∧ get_client_id (fun _ => "")
          ⟨"/x", none, some "7.7.7.7", some "203.0.113.5, 10.0.0.1"⟩
        = "ip:203.0.113.5") :=
  ⟨fun _ ha => Option.noConfusion ha,
    client_id_without_bearer (fun _ => "")
      ⟨"/x", none, some "7.7.7.7", some "203.0.113.5, 10.0.0.1"⟩
      (fun _ ha => Option.noConfusion ha)⟩

/-! ### C5: the store invariant on reachable states -/

/-- Removal by filtering preserves the structural invariant. -/
theorem ZSetInv_filter (z : ZSet) (p : ℤ × ℤ → Bool) (h : ZSetInv z) :
    ZSetInv (z.filter p) := by
  obtain ⟨h1, h2⟩ := h
  refine ⟨fun e he => h1 e (List.mem_of_mem_filter he), ?_⟩
  exact List.Nodup.sublist (List.Sublist.map Prod.fst (List.filter_sublist z)) h2

/-- Recording the current second (member equal to score) preserves the
structural invariant. -/
theorem ZSetInv_zaddList (z : ZSet) (now : ℤ) (h : ZSetInv z) :
    ZSetInv (zaddList z now now) := by
  obtain ⟨h1, h2⟩ := h
  unfold zaddList
  split
  · constructor
    · intro e he
      rw [List.mem_map] at he
      obtain ⟨e0, he0, rfl⟩ := he
      by_cases h0 : e0.1 = now
      · simp [h0]
      · rw [if_neg h0]
        exact h1 e0 he0
    · have hfst : (z.map (fun e => if e.1 = now then (e.1, now) else e)).map Prod.fst
          = z.map Prod.fst := by
        rw [List.map_map]
        apply List.map_congr_left
        intro e _
        by_cases h0 : e.1 = now <;> simp [h0]
      rw [hfst]
      exact h2
  · rename_i hany
    constructor
    · intro e he
      rw [List.mem_append] at he
      rcases he with he | he
      · exact h1 e he
      · simp only [List.mem_singleton] at he
        simp [he]
    · rw [List.map_append, List.nodup_append]
      refine ⟨h2, by simp, ?_⟩
      intro a ha hb
      simp only [List.map_cons, List.map_nil, List.mem_singleton] at hb
      subst hb
      rw [List.mem_map] at ha
      obtain ⟨e, he, hfst⟩ := ha
      exact hany (List.any_eq_true.mpr ⟨e, he, by simp [hfst]⟩)

/-- Every reachable store state satisfies the structural invariant at every
key. -/
theorem reachable_ZSetInv (maxRequests period : ℤ) (s : RedisState)
    (h : Reachable maxRequests period s) : ∀ k, ZSetInv (s.zset k) := by
  induction h with
  | empty => exact fun k => ⟨by simp [emptyState], by simp [emptyState]⟩
  | step s0 cid now _ ih =>
    intro k
    by_cases hc : ((zcard (pruneStep period s0 cid now) (rateLimitKey cid) : ℤ) ≥ maxRequests)
    · simp only [check_rate_limit_none_reject _ _ _ _ _ hc]
      by_cases hk : k = rateLimitKey cid
      · subst hk
        rw [pruneStep, zremrangebyscore_zset_self]
        exact ZSetInv_filter _ _ (ih _)
      · rw [pruneStep, zremrangebyscore_zset_ne _ _ _ _ _ hk]
        exact ih k
    · simp only [check_rate_limit_none_allow _ _ _ _ _ hc]
      by_cases hk : k = rateLimitKey cid
      · subst hk
        rw [expire_zset, zadd_zset_self, pruneStep, zremrangebyscore_zset_self]
        exact ZSetInv_zaddList _ _ (ZSetInv_filter _ _ (ih _))
      · rw [expire_zset, zadd_zset_ne _ _ _ _ _ hk, pruneStep,
          zremrangebyscore_zset_ne _ _ _ _ _ hk]
        exact ih k

/-- C5: in every reachable store state, each key's sorted set has at most one
entry per integer second — the stored scores are pairwise distinct, because an
admission is recorded under the member `str(current_time)`.  Consequently the
counted value `zcard` equals the number of distinct stored seconds (not the
number of admitted calls), and recording a second that is already stored
overwrites rather than appends: the count does not grow. -/
theorem reachable_at_most_one_entry_per_second (maxRequests period : ℤ)
    (s : RedisState) (h : Reachable maxRequests period s) (k : String) :
    ((s.zset k).map Prod.snd).Nodup
    ∧ zcard s k = ((s.zset k).map Prod.snd).toFinset.card
    ∧ ∀ t : ℤ, (∃ e ∈ s.zset k, e.1 = t) →
        zcard (zadd s k t t) k = zcard s k := by
  obtain ⟨h1, h2⟩ := reachable_ZSetInv maxRequests period s h k
  have hsnd : (s.zset k).map Prod.snd = (s.zset k).map Prod.fst :=
    List.map_congr_left (fun e he => (h1 e he).symm)
  have hnd : ((s.zset k).map Prod.snd).Nodup := hsnd ▸ h2
  refine ⟨hnd, ?_, ?_⟩
  · rw [List.toFinset_card_of_nodup hnd, List.length_map]
    rfl
  · rintro t ⟨e, he, het⟩
    rw [zcard, zadd_zset_self, zaddList, if_pos (List.any_eq_true.mpr ⟨e, he, by simp [het]⟩),
      List.length_map]
    rfl

/-- Witness for C5 at a concrete input: the state after one admission from a
fresh store is reachable, and the conclusion holds there. -/
theorem reachable_at_most_one_entry_per_second_witness :
    (((check_rate_limit none 100 60 emptyState "c" 5).state.zset (rateLimitKey "c")).map
        Prod.snd).Nodup
    ∧ zcard (check_rate_limit none 100 60 emptyState "c" 5).state (rateLimitKey "c")
        = (((check_rate_limit none 100 60 emptyState "c" 5).state.zset
            (rateLimitKey "c")).map Prod.snd).toFinset.card
    ∧ ∀ t : ℤ, (∃ e ∈ (check_rate_limit none 100 60 emptyState "c" 5).state.zset
          (rateLimitKey "c"), e.1 = t) →
        zcard (zadd (check_rate_limit none 100 60 emptyState "c" 5).state
            (rateLimitKey "c") t t) (rateLimitKey "c")
          = zcard (check_rate_limit none 100 60 emptyState "c" 5).state (rateLimitKey "c") :=
  reachable_at_most_one_entry_per_second 100 60 _
    (Reachable.step emptyState "c" 5 Reachable.empty) (rateLimitKey "c")

/-! ### C1: the window bound over call traces -/

/-- Filtering a list of `(t, t)` pairs commutes with filtering the seconds. -/
theorem filter_map_pair (l : List ℤ) (q : ℤ × ℤ → Bool) :
    (l.map (fun t => (t, t))).filter q
      = (l.filter (fun t => q (t, t))).map (fun t => (t, t)) := by
  induction l with
  | nil => rfl
  | cons b l ih =>
    simp only [List.map_cons, List.filter_cons]
    by_cases hq : q (b, b) = true
    · simp [hq, ih]
    · simp [hq, ih]

/-- Recording an already-stored second leaves the set unchanged (the update
branch of `ZADD` rewrites the member's score to the same value). -/
theorem zaddList_pair_mem (l : List ℤ) (now : ℤ) (h : now ∈ l) :
    zaddList (l.map (fun t => (t, t))) now now = l.map (fun t => (t, t)) := by
  have hany : ((l.map (fun t => (t, t))).any (fun e => e.1 == now)) = true := by
    rw [List.any_eq_true]
    refine ⟨(now, now), ?_, by simp⟩
    exact List.mem_map.mpr ⟨now, h, rfl⟩
  unfold zaddList
  rw [if_pos hany]
  rw [List.map_map]
  apply List.map_congr_left
  intro t _
  by_cases h0 : t = now
  · subst h0; simp
  · simp [h0]

/-- Recording a fresh second appends its entry. -/
theorem zaddList_pair_not_mem (l : List ℤ) (now : ℤ) (h : now ∉ l) :
    zaddList (l.map (fun t => (t, t))) now now
      = l.map (fun t => (t, t)) ++ [(now, now)] := by
  have hno : ¬ ((l.map (fun t => (t, t))).any (fun e => e.1 == now) = true) := by
    intro hany
    rw [List.any_eq_true] at hany
    obtain ⟨e, he, heq⟩ := hany
    rw [List.mem_map] at he
    obtain ⟨t, ht, rfl⟩ := he
    rw [beq_iff_eq] at heq
    have ht2 : t = now := heq
    exact h (ht2 ▸ ht)
  unfold zaddList
  rw [if_neg hno]

/-- Under the trace invariant, the prune step leaves exactly the admitted
seconds inside the window anchored at the current time. -/
theorem pruneStep_zset_of_inv (maxRequests period : ℤ) (cid : String) (s : RedisState)
    (admitted : List ℤ) (last now : ℤ)
    (hinv : TraceInv maxRequests period cid s admitted last) (hle : last ≤ now) :
    (pruneStep period s cid now).zset (rateLimitKey cid)
      = (admitted.filter (fun t => decide (now - period < t))).map (fun t => (t, t)) := by
  rw [pruneStep, zremrangebyscore_zset_self, hinv.zset_eq, filter_map_pair]
  congr 1
  rw [List.filter_filter]
  apply List.filter_congr
  intro t ht
  have h0 := hinv.nonneg t ht
  by_cases hcond : now - period < t
  · have h1 : last - period < t := by omega
    have h2 : ¬ (0 ≤ t ∧ t ≤ now - period) := by omega
    simp [hcond, h1, h2]
  · have h2 : 0 ≤ t ∧ t ≤ now - period := by omega
    simp [hcond, h2]

/-- One `check_rate_limit` call preserves the trace invariant, extending the
admitted-seconds list exactly when the call admits a second not yet stored. -/
theorem traceInv_step (maxRequests period : ℤ) (cid : String) (s : RedisState)
    (admitted : List ℤ) (last now : ℤ) (hper : 0 < period)
    (hinv : TraceInv maxRequests period cid s admitted last)
    (hle : last ≤ now) (hnow : 0 ≤ now) :
    TraceInv maxRequests period cid (check_rate_limit none maxRequests period s cid now).state
      (if (check_rate_limit none maxRequests period s cid now).admitted = true ∧ now ∉ admitted
        then admitted ++ [now] else admitted) now
    ∧ (if (check_rate_limit none maxRequests period s cid now).admitted = true ∧ now ∉ admitted
        then admitted ++ [now] else admitted).toFinset
      = (if (check_rate_limit none maxRequests period s cid now).admitted = true
          then insert now admitted.toFinset else admitted.toFinset) := by
  have hz := pruneStep_zset_of_inv maxRequests period cid s admitted last now hinv hle
  have hcnt : (zcard (pruneStep period s cid now) (rateLimitKey cid))
      = (admitted.filter (fun t => decide (now - period < t))).length := by
    rw [zcard, hz, List.length_map]
  by_cases hc : ((zcard (pruneStep period s cid now) (rateLimitKey cid) : ℤ) ≥ maxRequests)
  · simp only [check_rate_limit_none_reject _ _ _ _ _ hc]
    rw [if_neg (by simp : ¬ ((false = true) ∧ now ∉ admitted)),
      if_neg (by simp : ¬ (false = true))]
    exact ⟨⟨hinv.sorted, hinv.nonneg, fun t ht => le_trans (hinv.ub t ht) hle, hz,
      hinv.window_bound⟩, rfl⟩
  · simp only [check_rate_limit_none_allow _ _ _ _ _ hc]
    by_cases hmem : now ∈ admitted
    · rw [if_neg (by simp [hmem] : ¬ (True ∧ now ∉ admitted)), if_pos trivial]
      have hmem_f : now ∈ admitted.filter (fun t => decide (now - period < t)) :=
        List.mem_filter.mpr ⟨hmem, by simp; omega⟩
      refine ⟨⟨hinv.sorted, hinv.nonneg, fun t ht => le_trans (hinv.ub t ht) hle, ?_,
        hinv.window_bound⟩, ?_⟩
      · rw [expire_zset, zadd_zset_self, hz, zaddList_pair_mem _ _ hmem_f]
      · exact (Finset.insert_eq_self.mpr (List.mem_toFinset.mpr hmem)).symm
    · rw [if_pos (⟨trivial, hmem⟩ : True ∧ now ∉ admitted), if_pos trivial]
      have hnot_f : now ∉ admitted.filter (fun t => decide (now - period < t)) :=
        fun hmf => hmem (List.mem_of_mem_filter hmf)
      refine ⟨⟨?_, ?_, ?_, ?_, ?_⟩, ?_⟩
      · refine List.pairwise_append.mpr ⟨hinv.sorted, by simp, ?_⟩
        intro x hx y hy
        simp only [List.mem_singleton] at hy
        subst hy
        exact lt_of_le_of_ne (le_trans (hinv.ub x hx) hle) (fun he => hmem (he ▸ hx))
      · intro t ht
        rw [List.mem_append] at ht
        rcases ht with ht | ht
        · exact hinv.nonneg t ht
        · simp only [List.mem_singleton] at ht
          omega
      · intro t ht
        rw [List.mem_append] at ht
        rcases ht with ht | ht
        · exact le_trans (hinv.ub t ht) hle
        · simp only [List.mem_singleton] at ht
          omega
      · rw [expire_zset, zadd_zset_self, hz, zaddList_pair_not_mem _ _ hnot_f,
          List.filter_append, List.map_append]
        have hsing : (([now] : List ℤ).filter (fun t => decide (now - period < t))) = [now] := by
          simp
          omega
        rw [hsing]
        simp
      · intro t0 ht0
        rw [List.mem_append] at ht0
        rw [List.filter_append]
        rcases ht0 with ht0 | ht0
        · have ht0now : t0 < now :=
            lt_of_le_of_ne (le_trans (hinv.ub t0 ht0) hle) (fun he => hmem (he ▸ ht0))
          have hsing : (([now] : List ℤ).filter
              (fun t => decide (t0 - period < t ∧ t ≤ t0))) = [] := by
            simp
            omega
          rw [hsing, List.append_nil]
          exact hinv.window_bound t0 ht0
        · simp only [List.mem_singleton] at ht0
          subst ht0
          have hsing : (([t0] : List ℤ).filter
              (fun t => decide (t0 - period < t ∧ t ≤ t0))) = [t0] := by
            simp
            omega
          rw [hsing]
          have hfeq : admitted.filter (fun t => decide (t0 - period < t ∧ t ≤ t0))
              = admitted.filter (fun t => decide (t0 - period < t)) := by
            apply List.filter_congr
            intro t ht
            have := le_trans (hinv.ub t ht) hle
            rw [decide_eq_decide]
            omega
          rw [hfeq, List.length_append]
          rw [hcnt] at hc
          simp only [List.length_singleton]
          omega
      · rw [List.toFinset_append]
        ext x
        simp [or_comm]

/-- Running a chain of calls from an invariant state yields an invariant state
whose admitted-seconds set is the old one plus the newly admitted times. -/
theorem runCalls_inv (maxRequests period : ℤ) (cid : String) (hper : 0 < period) :
    ∀ (ts : List ℤ) (s : RedisState) (admitted : List ℤ) (last : ℤ),
      TraceInv maxRequests period cid s admitted last →
      List.Chain (· ≤ ·) last ts → (∀ t ∈ ts, 0 ≤ t) →
      ∃ admitted2 last2,
        TraceInv maxRequests period cid (runCalls maxRequests period cid s ts).1 admitted2 last2
        ∧ admitted2.toFinset
          = admitted.toFinset ∪ (runCalls maxRequests period cid s ts).2.toFinset := by
  intro ts
  induction ts with
  | nil =>
    intro s admitted last hinv _ _
    exact ⟨admitted, last, hinv, by simp [runCalls]⟩
  | cons t ts ih =>
    intro s admitted last hinv hchain hnn
    rw [List.chain_cons] at hchain
    obtain ⟨hlt, hchain2⟩ := hchain
    obtain ⟨hinv2, hset⟩ := traceInv_step maxRequests period cid s admitted last t hper hinv
      hlt (hnn t (by simp))
    obtain ⟨admitted3, last3, hinv3, hset3⟩ :=
      ih (check_rate_limit none maxRequests period s cid t).state _ t hinv2 hchain2
        (fun u hu => hnn u (by simp [hu]))
    have hrun : runCalls maxRequests period cid s (t :: ts)
        = ((runCalls maxRequests period cid
              (check_rate_limit none maxRequests period s cid t).state ts).1,
           if (check_rate_limit none maxRequests period s cid t).admitted
             then t :: (runCalls maxRequests period cid
                (check_rate_limit none maxRequests period s cid t).state ts).2
             else (runCalls maxRequests period cid
                (check_rate_limit none maxRequests period s cid t).state ts).2) := rfl
    refine ⟨admitted3, last3, ?_, ?_⟩
    · rw [hrun]
      exact hinv3
    · rw [hrun, hset3, hset]
      by_cases hadm : (check_rate_limit none maxRequests period s cid t).admitted = true
      · rw [if_pos hadm, if_pos hadm, List.toFinset_cons]
        ext x
        simp only [Finset.mem_union, Finset.mem_insert]
        tauto
      · rw [if_neg hadm, if_neg hadm]

/-- From the per-admission window bound, every trailing window of length
`period` contains at most `maxRequests` of the admitted seconds. -/
theorem windowed_bound (maxRequests period : ℤ) (D : Finset ℤ) (hmax : 0 ≤ maxRequests)
    (hwb : ∀ t0 ∈ D, ((D.filter (fun t => t0 - period < t ∧ t ≤ t0)).card : ℤ) ≤ maxRequests)
    (a : ℤ) :
    ((D.filter (fun t => a < t ∧ t ≤ a + period)).card : ℤ) ≤ maxRequests := by
  rcases Finset.eq_empty_or_nonempty (D.filter (fun t => a < t ∧ t ≤ a + period)) with he | hne
  · rw [he]
    simpa using hmax
  · have hmem := Finset.max'_mem _ hne
    have hmem2 := Finset.mem_filter.mp hmem
    have hsub : D.filter (fun t => a < t ∧ t ≤ a + period)
        ⊆ D.filter (fun t =>
            (D.filter (fun t => a < t ∧ t ≤ a + period)).max' hne - period < t
            ∧ t ≤ (D.filter (fun t => a < t ∧ t ≤ a + period)).max' hne) := by
      intro x hx
      have hx2 := Finset.mem_filter.mp hx
      have hxle : x ≤ (D.filter (fun t => a < t ∧ t ≤ a + period)).max' hne :=
        Finset.le_max' _ x hx
      refine Finset.mem_filter.mpr ⟨hx2.1, ?_, hxle⟩
      omega
    have h1 : ((D.filter (fun t => a < t ∧ t ≤ a + period)).card : ℤ)
        ≤ ((D.filter (fun t =>
            (D.filter (fun t => a < t ∧ t ≤ a + period)).max' hne - period < t
            ∧ t ≤ (D.filter (fun t => a < t ∧ t ≤ a + period)).max' hne)).card : ℤ) := by
      exact_mod_cast Finset.card_le_card hsub
    exact le_trans h1 (hwb _ hmem2.1)

/-- The per-admission window bound transfers from the nodup list to its
finset. -/
theorem list_window_to_finset (maxRequests period : ℤ) (l : List ℤ) (hnd : l.Nodup)
    (hwb : ∀ t0 ∈ l, ((l.filter (fun t => decide (t0 - period < t ∧ t ≤ t0))).length : ℤ)
      ≤ maxRequests) :
    ∀ t0 ∈ l.toFinset,
      ((l.toFinset.filter (fun t => t0 - period < t ∧ t ≤ t0)).card : ℤ) ≤ maxRequests := by
  intro t0 ht0
  rw [List.mem_toFinset] at ht0
  have h1 : l.toFinset.filter (fun t => t0 - period < t ∧ t ≤ t0)
      = (l.filter (fun t => decide (t0 - period < t ∧ t ≤ t0))).toFinset := by
    rw [List.toFinset_filter]
    apply Finset.filter_congr
    intro x _
    simp
  rw [h1, List.toFinset_card_of_nodup (hnd.filter _)]
  exact hwb t0 ht0

/-- C1 counterexample: with `maxAdmissions = 2` and `windowSeconds = 60`, three
calls in the same second 0 are all admitted — the second and third recordings
overwrite the entry keyed by `str(0)`, so the count never reaches the limit and
3 calls returning true land inside one 60-second window. -/
theorem three_same_second_admissions_exceed_limit :
    (runCalls 2 60 "c" emptyState [0, 0, 0]).2 = [0, 0, 0]
    ∧ (((runCalls 2 60 "c" emptyState [0, 0, 0]).2.filter
        (fun t => decide (0 ≤ t ∧ t < 60))).length : ℤ) = 3
    ∧ ¬ ((((runCalls 2 60 "c" emptyState [0, 0, 0]).2.filter
        (fun t => decide (0 ≤ t ∧ t < 60))).length : ℤ) ≤ 2) :=
  ⟨by decide, by decide, by decide⟩

/-- C1 (amended): over any back-to-back (atomic per call) sequence of
`check_rate_limit` calls for a single key, at nondecreasing nonnegative times
starting from a fresh store, the number of **distinct seconds** among the calls
that return true inside any interval of `windowSeconds` never exceeds
`maxAdmissions`.  (Admissions are keyed by `str(current_time)`, so several
admitted calls in the same second collapse to one stored entry; only the count
of distinct admitted seconds is bounded, as the counterexample shows.) -/
theorem admitted_distinct_seconds_window_bound (maxRequests period : ℤ) (cid : String)
    (ts : List ℤ) (hper : 0 < period) (hmax : 0 ≤ maxRequests)
    (hsort : ts.Sorted (· ≤ ·)) (hnn : ∀ t ∈ ts, 0 ≤ t) (a : ℤ) :
    ((((runCalls maxRequests period cid emptyState ts).2).toFinset.filter
        (fun t => a < t ∧ t ≤ a + period)).card : ℤ) ≤ maxRequests := by
  have hinv0 : TraceInv maxRequests period cid emptyState [] (-1) :=
    ⟨by simp, by simp, by simp, rfl, by simp⟩
  have hchain : List.Chain (· ≤ ·) (-1) ts := by
    rw [List.chain_iff_pairwise]
    rw [List.pairwise_cons]
    refine ⟨fun t ht => ?_, hsort⟩
    have := hnn t ht
    omega
  obtain ⟨admitted2, last2, hinv2, hset2⟩ :=
    runCalls_inv maxRequests period cid hper ts emptyState [] (-1) hinv0 hchain hnn
  have hnd : admitted2.Nodup := List.Pairwise.imp (fun h => ne_of_lt h) hinv2.sorted
  have hDset : (runCalls maxRequests period cid emptyState ts).2.toFinset
      = admitted2.toFinset := by
    rw [hset2]
    simp
  rw [hDset]
  exact windowed_bound maxRequests period admitted2.toFinset hmax
    (list_window_to_finset maxRequests period admitted2 hnd hinv2.window_bound) a

/-- Witness for C1 at a concrete input: limit 2, window 60, calls at seconds
0, 1, 2, 61 — any window of length 60 holds at most 2 admitted seconds. -/
theorem admitted_distinct_seconds_window_bound_witness :
    (0 : ℤ) < 60 ∧ (0 : ℤ) ≤ 2
    ∧ ([0, 1, 2, 61] : List ℤ).Sorted (· ≤ ·)
    ∧ (∀ t ∈ ([0, 1, 2, 61] : List ℤ), 0 ≤ t)
    ∧ ((((runCalls 2 60 "c" emptyState [0, 1, 2, 61]).2).toFinset.filter
        (fun t => 0 < t ∧ t ≤ 0 + 60)).card : ℤ) ≤ 2 :=
  ⟨by decide, by decide, by decide, by decide,
    admitted_distinct_seconds_window_bound 2 60 "c" [0, 1, 2, 61] (by decide) (by decide)
      (by decide) (by decide) 0⟩
